import Mathlib

/-!
# shout.wasm: orchestration layer of the speech-to-text module

A shallow embedding of `src/shout.wasm/src/shout.wasm.cpp`.

* C strings (`const char *`, `std::string`) are lists of characters: the list
  holds what precedes the terminating NUL, and a loop that tests
  `str[i] != 0` also stops at the end of the list.
* `int64_t` and `int` values are integers, reduced to the two's-complement
  range after every multiplication, subtraction and narrowing cast.
* Audio samples are values of an arbitrary type: the code only copies them.
* `float` values are only printed: their type and the stream formatter are
  parameters.
-/

namespace Shout

/-! ## Machine integers -/

/-- Reduction of an integer to the signed 64-bit range (`int64_t`). -/
def wrap64 (x : Int) : Int := (x + 2 ^ 63) % 2 ^ 64 - 2 ^ 63

/-- Reduction of an integer to the signed 32-bit range (the cast `(int)`). -/
def wrap32 (x : Int) : Int := (x + 2 ^ 31) % 2 ^ 32 - 2 ^ 31

/-- The product `a * b` computed in `int64_t`. -/
def mul64 (a b : Int) : Int := wrap64 (a * b)

/-- The difference `a - b` computed in `int64_t`. -/
def sub64 (a b : Int) : Int := wrap64 (a - b)

/-- The quotient `a / b` of C++: it truncates towards zero. -/
def div64 (a b : Int) : Int := wrap64 (Int.tdiv a b)

/-! ## Formatting of integers -/

/-- The conversion `%0<width>d` of `printf`: the decimal digits of `v`, a
leading minus sign when `v` is negative, and zeros between the sign and the
digits up to a total of `width` characters. -/
def fmt_d (width : Nat) (v : Int) : List Char :=
  let digits := Nat.toDigits 10 v.natAbs
  let sign : List Char := if v < 0 then ['-'] else []
  sign ++ List.replicate (width - sign.length - digits.length) '0' ++ digits

/-- The insertion `json << val` of an `int64_t` into a stream: decimal digits
with a leading minus sign for a negative value. -/
def stream_i64 (v : Int) : List Char :=
  (if v < 0 then ['-'] else []) ++ Nat.toDigits 10 v.natAbs

/-! ## `to_timestamp` (lines 35-51) -/

/-- The function `to_timestamp`: `snprintf` into a buffer of 32 bytes keeps at
most 31 characters. -/
def to_timestamp (t : Int) (comma : Bool) : List Char :=
  let msec := mul64 t 10
  let hr := div64 msec (1000 * 60 * 60)
  let msec := sub64 msec (mul64 hr (1000 * 60 * 60))
  let min := div64 msec (1000 * 60)
  let msec := sub64 msec (mul64 min (1000 * 60))
  let sec := div64 msec 1000
  let msec := sub64 msec (mul64 sec 1000)
  (fmt_d 2 (wrap32 hr) ++ [':'] ++ fmt_d 2 (wrap32 min) ++ [':'] ++
    fmt_d 2 (wrap32 sec) ++ (if comma then [','] else ['.']) ++
    fmt_d 3 (wrap32 msec)).take 31

/-- Two zero-padded decimal digits of a number below 100. -/
def two_digits (n : Nat) : List Char :=
  [Nat.digitChar (n / 10), Nat.digitChar (n % 10)]

/-- Three zero-padded decimal digits of a number below 1000. -/
def three_digits (n : Nat) : List Char :=
  [Nat.digitChar (n / 100), Nat.digitChar (n / 10 % 10), Nat.digitChar (n % 10)]

/-- The timestamp as the specification words it: `HH:MM:SS<sep>mmm` with
`mmm = (10 t) mod 1000`, `SS = floor (10 t / 1000) mod 60`,
`MM = floor (10 t / 60000) mod 60` and `HH = floor (10 t / 3600000)`. -/
def spec_timestamp (t : Int) (comma : Bool) : List Char :=
  two_digits (10 * t / 3600000).toNat ++ [':'] ++
    two_digits (10 * t / 60000 % 60).toNat ++ [':'] ++
    two_digits (10 * t / 1000 % 60).toNat ++ [if comma then ',' else '.'] ++
    three_digits (10 * t % 1000).toNat

/-! ## `escape_double_quotes_and_backslashes` (lines 53-82) -/

/-- The terminating character of a C string. -/
def NUL : Char := Char.ofNat 0

/-- The double quote. -/
def QUOTE : Char := Char.ofNat 34

/-- The backslash. -/
def BACKSLASH : Char := Char.ofNat 92

/-- The function `strlen`: the number of characters before the terminator. -/
def strlen : List Char → Nat
  | [] => 0
  | c :: cs => if c = NUL then 0 else strlen cs + 1

/-- The first loop (lines 60-64): `escaped_length` is incremented once for
every quote and backslash before the terminator. -/
def count_loop : List Char → Nat → Nat
  | [], escaped_length => escaped_length
  | c :: cs, escaped_length =>
    if c = NUL then escaped_length
    else if c = QUOTE ∨ c = BACKSLASH then count_loop cs (escaped_length + 1)
    else count_loop cs escaped_length

/-- The second loop (lines 72-77): the characters are stored into the buffer
`escaped` at `pos`, a backslash first for a quote or a backslash. The result
is the buffer and the final `pos`. -/
def write_loop : List Char → List Char → Nat → List Char × Nat
  | [], escaped, pos => (escaped, pos)
  | c :: cs, escaped, pos =>
    if c = NUL then (escaped, pos)
    else if c = QUOTE ∨ c = BACKSLASH then
      write_loop cs ((escaped.set pos BACKSLASH).set (pos + 1) c) (pos + 2)
    else write_loop cs (escaped.set pos c) (pos + 1)

/-- The buffer returned by `escape_double_quotes_and_backslashes` for a
non-null `str`, the allocation having succeeded: `calloc` gives
`escaped_length` zero bytes and the second loop fills them. -/
def escape_buffer (str : List Char) : List Char :=
  let escaped_length := count_loop str (strlen str + 1)
  let escaped := List.replicate escaped_length NUL
  (write_loop str escaped 0).1

/-- The C string held by a buffer: its characters before the first NUL. -/
def c_str (buf : List Char) : List Char := buf.takeWhile (fun c => c ≠ NUL)

/-- The string returned by `escape_double_quotes_and_backslashes`. -/
def escape_double_quotes_and_backslashes (str : List Char) : List Char :=
  c_str (escape_buffer str)

/-- The inverse the specification names: each escaping backslash is deleted
and the character after it is kept. -/
def unescape : List Char → List Char
  | [] => []
  | [c] => if c = BACKSLASH then [] else [c]
  | c :: d :: cs => if c = BACKSLASH then d :: unescape cs else c :: unescape (d :: cs)

/-- A scan of an escaped string: a backslash must be followed by a quote or a
backslash, which it escapes, and no quote may be met outside such a pair. -/
def no_bare_special : List Char → Bool
  | [] => true
  | [c] => !(c = QUOTE ∨ c = BACKSLASH)
  | c :: d :: cs =>
    if c = BACKSLASH then (d = QUOTE ∨ d = BACKSLASH) && no_bare_special cs
    else if c = QUOTE then false
    else no_bare_special (d :: cs)

/-- What escaping writes for one character: the character, after a backslash
when it is a quote or a backslash. -/
def escape_char (c : Char) : List Char :=
  if c = QUOTE ∨ c = BACKSLASH then [BACKSLASH, c] else [c]

/-- The number of quotes and backslashes of a string. -/
def count_special (s : List Char) : Nat :=
  (s.filter (fun c => c = QUOTE ∨ c = BACKSLASH)).length

/-! ## The inference result read by the encoder

`whisper.h` is an external library. The encoder reads the result of the last
inference through its accessors; the record below holds what they return. -/

/-- The fields of `whisper_token_data` that the encoder reads. `F` is the type
`float` of the probability. -/
structure whisper_token_data (F : Type) where
  id : Int
  p : F
  t0 : Int
  t1 : Int
  t_dtw : Int

/-- One segment of the inference result. -/
structure whisper_segment (F : Type) where
  text : List Char
  t0 : Int
  t1 : Int
  tokens : List (whisper_token_data F)

/-- The state of a `whisper_context` after an inference: the detected language
(`whisper_lang_str (whisper_full_lang_id ctx)`), the segments and the
vocabulary (`whisper_token_to_str`). -/
structure whisper_context (F : Type) where
  lang : List Char
  segments : List (whisper_segment F)
  vocab : Int → List Char

/-- The segment of index `i`, as `whisper_full_get_segment_text`,
`whisper_full_get_segment_t0`, `whisper_full_get_segment_t1`,
`whisper_full_n_tokens` and `whisper_full_get_token_data` read it. Outside
`[0, n_segments)` the library is undefined; the model returns an empty segment. -/
def whisper_full_get_segment {F : Type} (ctx : whisper_context F) (i : Int) :
    whisper_segment F :=
  if i < 0 then ⟨[], 0, 0, []⟩ else ctx.segments.getD i.toNat ⟨[], 0, 0, []⟩

/-- The function `whisper_full_n_segments`. -/
def whisper_full_n_segments {F : Type} (ctx : whisper_context F) : Int :=
  ctx.segments.length

/-! ## `to_output_json` (lines 89-210)

Every lambda appends to the stream `json`; its model is the text it appends. -/

/-- The lambda `start_arr`. -/
def start_arr (name : List Char) : List Char :=
  [QUOTE] ++ name ++ [QUOTE, ':', ' ', '[']

/-- The lambda `end_arr`. -/
def end_arr (e : Bool) : List Char := if e then [']'] else [']', ',']

/-- The lambda `start_obj`; `none` is the null name. -/
def start_obj (name : Option (List Char)) : List Char :=
  match name with
  | some n => [QUOTE] ++ n ++ [QUOTE, ':', ' ', '{']
  | none => ['{']

/-- The lambda `end_obj`. -/
def end_obj (e : Bool) : List Char := if e then ['}'] else ['}', ',']

/-- The lambda `start_value`. -/
def start_value (name : List Char) : List Char :=
  [QUOTE] ++ name ++ [QUOTE, ':', ' ']

/-- The lambda `value_s`. -/
def value_s (name val : List Char) (e : Bool) : List Char :=
  start_value name ++ [QUOTE] ++ escape_double_quotes_and_backslashes val ++
    (if e then [QUOTE] else [QUOTE, ','])

/-- The lambda `end_value`. -/
def end_value (e : Bool) : List Char := if e then [] else [',']

/-- The lambda `value_i`. -/
def value_i (name : List Char) (val : Int) (e : Bool) : List Char :=
  start_value name ++ stream_i64 val ++ end_value e

/-- The lambda `value_f`; `fmt_f` is the stream insertion of a `float`. -/
def value_f {F : Type} (fmt_f : F → List Char) (name : List Char) (val : F) (e : Bool) :
    List Char :=
  start_value name ++ fmt_f val ++ end_value e

/-- The lambda `value_b`. -/
def value_b (name : List Char) (val : Bool) (e : Bool) : List Char :=
  start_value name ++ (if val then "true".toList else "false".toList) ++ end_value e

/-- The lambda `times_o`. -/
def times_o (t0 t1 : Int) (e : Bool) : List Char :=
  start_obj (some "timestamps".toList) ++
    value_s "from".toList (to_timestamp t0 true) false ++
    value_s "to".toList (to_timestamp t1 true) true ++
    end_obj false ++
    start_obj (some "offsets".toList) ++
    value_i "from".toList (mul64 t0 10) false ++
    value_i "to".toList (mul64 t1 10) true ++
    end_obj e

/-- The lambda `times_single_o`. -/
def times_single_o (name : List Char) (t0 : Int) (e : Bool) : List Char :=
  start_obj (some name) ++
    value_s "timestamp".toList (to_timestamp t0 true) false ++
    value_i "offset".toList (mul64 t0 10) false ++
    end_obj e

/-- The body of the token loop (lines 180-192) for token `j` of `n`. -/
def token_json {F : Type} (fmt_f : F → List Char) (ctx : whisper_context F)
    (token : whisper_token_data F) (j n : Int) : List Char :=
  start_obj none ++
    value_s "text".toList (ctx.vocab token.id) false ++
    (if token.t0 > -1 ∧ token.t1 > -1 then times_o token.t0 token.t1 false else []) ++
    value_i "id".toList token.id false ++
    value_f fmt_f "p".toList token.p (decide (token.t_dtw ≤ -1)) ++
    (if token.t_dtw > -1 then times_single_o "dtw".toList token.t_dtw true else []) ++
    end_obj (decide (j = n - 1))

/-- The token loop `for (int j = 0; j < n; ++j)`, from index `j` on: `tokens`
holds the tokens of index `j` and above. -/
def token_loop {F : Type} (fmt_f : F → List Char) (ctx : whisper_context F) (n : Int) :
    Int → List (whisper_token_data F) → List Char
  | _, [] => []
  | j, token :: rest => token_json fmt_f ctx token j n ++ token_loop fmt_f ctx n (j + 1) rest

/-- The body of the segment loop (lines 166-198) for the segment of index `i`. -/
def segment_json {F : Type} (fmt_f : F → List Char) (ctx : whisper_context F)
    (n_segment_1 : Int) (is_segment : Bool) (i : Int) : List Char :=
  let seg := whisper_full_get_segment ctx i
  (if !is_segment then start_obj none else []) ++
    times_o seg.t0 seg.t1 false ++
    value_s "text".toList seg.text false ++
    start_arr "tokens".toList ++
    token_loop fmt_f ctx seg.tokens.length 0 seg.tokens ++
    end_arr true ++
    (if !is_segment then end_obj (decide (i = n_segment_1 - 1)) else [])

/-- The function `to_output_json`. The loop `for (int i = n_segment_0;
i < n_segment_1; ++i)` runs over `n_segment_0 + k` for
`k < n_segment_1 - n_segment_0`. -/
def to_output_json {F : Type} (fmt_f : F → List Char) (ctx : whisper_context F)
    (n_segment_0 n_segment_1 : Int) (is_segment : Bool) : List Char :=
  start_obj none ++
    start_obj (some "result".toList) ++
    value_s "language".toList ctx.lang true ++
    end_obj false ++
    (if is_segment then start_obj (some "segment".toList)
      else start_arr "transcription".toList) ++
    (List.range (n_segment_1 - n_segment_0).toNat).flatMap
      (fun k => segment_json fmt_f ctx n_segment_1 is_segment (n_segment_0 + k)) ++
    (if is_segment then end_obj true else end_arr true) ++
    end_obj true

/-! ## The document the specification describes -/

/-- A character that escaping leaves alone and that does not end a C string. -/
def plain_char (c : Char) : Prop := c ≠ NUL ∧ c ≠ QUOTE ∧ c ≠ BACKSLASH

instance (c : Char) : Decidable (plain_char c) := by unfold plain_char; infer_instance

/-- Texts separated by exactly one comma: none before the first, none after
the last. -/
def comma_separated : List (List Char) → List Char
  | [] => []
  | [x] => x
  | x :: y :: r => x ++ [','] ++ comma_separated (y :: r)

/-- A member of an object: its quoted key, a colon, a space and its value. -/
def json_member (kv : List Char × List Char) : List Char :=
  [QUOTE] ++ kv.1 ++ [QUOTE, ':', ' '] ++ kv.2

/-- An object: its members between braces, separated by single commas. -/
def json_object (members : List (List Char × List Char)) : List Char :=
  ['{'] ++ comma_separated (members.map json_member) ++ ['}']

/-- An array: its elements between brackets, separated by single commas. -/
def json_array (elems : List (List Char)) : List Char :=
  ['['] ++ comma_separated elems ++ [']']

/-- A string value: its content between double quotes. -/
def json_string (s : List Char) : List Char := [QUOTE] ++ s ++ [QUOTE]

/-- The two members `timestamps` and `offsets` of a segment or token object. -/
def times_members (from_s to_s : List Char) (from_ms to_ms : Int) :
    List (List Char × List Char) :=
  [("timestamps".toList,
      json_object [("from".toList, json_string from_s), ("to".toList, json_string to_s)]),
    ("offsets".toList,
      json_object [("from".toList, stream_i64 from_ms), ("to".toList, stream_i64 to_ms)])]

/-- The value of the member `dtw`: the object with the members `timestamp`
and `offset`, the latter `10 * t_dtw`. -/
def dtw_object (t_dtw : Int) : List Char :=
  json_object
    [("timestamp".toList, json_string (to_timestamp t_dtw true)),
      ("offset".toList, stream_i64 (10 * t_dtw))]

/-- The members of a token object, in order: `text`; `timestamps` and
`offsets` if and only if `t0 ≥ 0` and `t1 ≥ 0`; `id`; `p`; `dtw` if and only
if `t_dtw ≥ 0`. -/
def token_members {F : Type} (fmt_f : F → List Char) (ctx : whisper_context F)
    (token : whisper_token_data F) : List (List Char × List Char) :=
  [("text".toList, json_string (escape_double_quotes_and_backslashes (ctx.vocab token.id)))] ++
    (if 0 ≤ token.t0 ∧ 0 ≤ token.t1 then
      times_members (to_timestamp token.t0 true) (to_timestamp token.t1 true)
        (10 * token.t0) (10 * token.t1)
    else []) ++
    [("id".toList, stream_i64 token.id), ("p".toList, fmt_f token.p)] ++
    (if 0 ≤ token.t_dtw then [("dtw".toList, dtw_object token.t_dtw)] else [])

/-- The token object. -/
def token_document {F : Type} (fmt_f : F → List Char) (ctx : whisper_context F)
    (token : whisper_token_data F) : List Char :=
  json_object (token_members fmt_f ctx token)

/-- The segment object of batch mode: `timestamps` with the two formatted
timestamps, `offsets` with `10 * t0` and `10 * t1`, the escaped `text` and the
array `tokens`. -/
def segment_document {F : Type} (fmt_f : F → List Char) (ctx : whisper_context F)
    (seg : whisper_segment F) : List Char :=
  json_object
    (times_members (to_timestamp seg.t0 true) (to_timestamp seg.t1 true)
        (10 * seg.t0) (10 * seg.t1) ++
      [("text".toList, json_string (escape_double_quotes_and_backslashes seg.text)),
        ("tokens".toList, json_array (seg.tokens.map (token_document fmt_f ctx)))])

/-- The segments of index `n0` to `n1 - 1`, in index order. -/
def segment_range {F : Type} (ctx : whisper_context F) (n0 n1 : Nat) :
    List (whisper_segment F) :=
  (ctx.segments.drop n0).take (n1 - n0)

/-- The batch-mode document over the range `[n0, n1)`: `result.language` and
the array `transcription` of the segment objects. -/
def batch_document {F : Type} (fmt_f : F → List Char) (ctx : whisper_context F)
    (n0 n1 : Nat) : List Char :=
  json_object
    [("result".toList,
        json_object
          [("language".toList, json_string (escape_double_quotes_and_backslashes ctx.lang))]),
      ("transcription".toList,
        json_array ((segment_range ctx n0 n1).map (segment_document fmt_f ctx)))]

/-- The millisecond value `10 * t` of a tick count is an `int64_t`. -/
def ms_fits (t : Int) : Prop := -(2 ^ 63) ≤ 10 * t ∧ 10 * t < 2 ^ 63

instance (t : Int) : Decidable (ms_fits t) := by unfold ms_fits; infer_instance

/-- A token whose times have their millisecond values in `int64_t` and that
carries no alignment timestamp. -/
def token_in_domain {F : Type} (token : whisper_token_data F) : Prop :=
  ms_fits token.t0 ∧ ms_fits token.t1 ∧ token.t_dtw < 0

instance {F : Type} (token : whisper_token_data F) : Decidable (token_in_domain token) := by
  unfold token_in_domain; infer_instance

/-- A segment whose times have their millisecond values in `int64_t` and
whose tokens all are in the domain. -/
def segment_in_domain {F : Type} (seg : whisper_segment F) : Prop :=
  ms_fits seg.t0 ∧ ms_fits seg.t1 ∧ ∀ token ∈ seg.tokens, token_in_domain token

instance {F : Type} (seg : whisper_segment F) : Decidable (segment_in_domain seg) := by
  unfold segment_in_domain; infer_instance

/-- The inference result of the encoding scenario: one segment `[100, 300]`
with text `hi` and one token of id 7 without timestamps; the probability is
held as its printed form. -/
def scenario_ctx : whisper_context (List Char) :=
  ⟨"en".toList, [⟨"hi".toList, 100, 300, [⟨7, "0.9".toList, -1, -1, -1⟩]⟩], fun _ => "hi".toList⟩

/-- An inference result with one segment whose token has the alignment
timestamp `t_dtw = 1`. -/
def dtw_ctx : whisper_context (List Char) :=
  ⟨"en".toList, [⟨"hi".toList, 100, 300, [⟨7, "0.9".toList, -1, -1, 1⟩]⟩], fun _ => "hi".toList⟩

/-- An inference result with one segment that starts at 922337203685477581
ticks, the first tick count whose tenfold is no `int64_t`. -/
def overflow_ctx : whisper_context (List Char) :=
  ⟨"en".toList, [⟨"hi".toList, 922337203685477581, 0, []⟩], fun _ => "hi".toList⟩

/-- An inference result with two segments, without tokens. -/
def two_segment_ctx : whisper_context (List Char) :=
  ⟨"en".toList, [⟨"hi".toList, 100, 300, []⟩, ⟨"yo".toList, 300, 400, []⟩],
    fun _ => "hi".toList⟩

/-! ## Events (lines 212-276) -/

/-- One call of `call_handler`: the handler name and the arguments, each as
the text inserted into the script. -/
structure HandlerCall where
  handler : String
  args : List (List Char)
  deriving DecidableEq, Repr

/-- The function `progress_callback`. -/
def progress_callback (progress : Int) : HandlerCall :=
  ⟨"onProgress", [stream_i64 progress]⟩

/-- The function `new_segment_callback`: the last `n_new` segments are encoded
in segment mode. -/
def new_segment_callback {F : Type} (fmt_f : F → List Char) (ctx : whisper_context F)
    (n_new : Int) : HandlerCall :=
  let n_segment_1 := whisper_full_n_segments ctx
  let n_segment_0 := wrap32 (n_segment_1 - n_new)
  ⟨"onNewSegment", [to_output_json fmt_f ctx n_segment_0 n_segment_1 true]⟩

/-! ## Language resolution of `bind_transcribe` (lines 372-391) -/

/-- The method `std::vector::resize`: the first `n` elements are kept and the
vector is padded with zeros up to `n`. -/
def vector_resize {α : Type} (zero : α) (v : List α) (n : Nat) : List α :=
  v.take n ++ List.replicate (n - v.length) zero

/-- The method `set` of a typed array viewing `dst`: the elements of `src`
are stored from index 0 on. -/
def typed_array_set {α : Type} (dst src : List α) : List α :=
  src ++ dst.drop src.length

/-- The function `bind_set_stream_audio`: the new content of `g_pcmf32`. -/
def bind_set_stream_audio {α : Type} (zero : α) (g_pcmf32 audio : List α) : List α :=
  let n := audio.length
  let g_pcmf32 := vector_resize zero g_pcmf32 n
  typed_array_set g_pcmf32 audio

/-- What the block that holds the lock (lines 514-527) leaves: the shared
buffer, the local buffer, and whether the iteration goes on to the inference
(`false` is the `continue`). -/
structure DrainResult (α : Type) where
  g_pcmf32 : List α
  pcmf32 : List α
  proceeds : Bool

/-- The block of lines 514-527. -/
def drain_block {α : Type} (g_pcmf32 pcmf32 : List α) : DrainResult α :=
  if g_pcmf32.length < 1024 then ⟨g_pcmf32, pcmf32, false⟩
  else ⟨[], g_pcmf32, true⟩

/-- The samples handed to `whisper_full` in the iteration, if any. -/
def DrainResult.chunk {α : Type} (r : DrainResult α) : Option (List α) :=
  if r.proceeds then some r.pcmf32 else none

/-! ## The streaming worker (lines 241-250 and 475-568) -/

/-- The state the streaming worker works on: the static `last_status` of
`stream_set_status`, the shared buffer, the local buffer of `stream_main`,
the chunks handed to the inference and the calls of `call_handler`, both in
order. -/
structure StreamState (α : Type) where
  last_status : String
  g_pcmf32 : List α
  pcmf32 : List α
  inferred : List (List α)
  events : List HandlerCall

/-- The state of a process that has not streamed yet. -/
def StreamState.init {α : Type} : StreamState α := ⟨"", [], [], [], []⟩

/-- The function `call_handler`, as a record of the call. -/
def call_handler {α : Type} (handler : String) (args : List (List Char))
    (st : StreamState α) : StreamState α :=
  { st with events := st.events ++ [⟨handler, args⟩] }

/-- The function `stream_set_status`. -/
def stream_set_status {α : Type} (status : String) (st : StreamState α) : StreamState α :=
  if status ≠ st.last_status then
    call_handler "onStreamStatus" [status.toList] { st with last_status := status }
  else st

/-- What the environment does during one iteration of the loop of
`stream_main`: the chunks that the producer passes to `setStreamAudio` before
the worker takes the lock, the value that `whisper_full` returns and the
inference result it leaves. -/
structure Round (α F : Type) where
  incoming : List (List α)
  ret : Int
  result : whisper_context F

/-- The loop `while (g_stream_running)` of `stream_main`: one iteration for
every round, the flag being read `false` after the last one. -/
def stream_loop {α F : Type} (zero : α) (fmt_f : F → List Char) :
    List (Round α F) → StreamState α → StreamState α
  | [], st => st
  | r :: rest, st =>
    let st := stream_set_status "waiting" st
    let st := { st with
      g_pcmf32 := r.incoming.foldl (bind_set_stream_audio zero) st.g_pcmf32 }
    let d := drain_block st.g_pcmf32 st.pcmf32
    let st := { st with g_pcmf32 := d.g_pcmf32, pcmf32 := d.pcmf32 }
    if !d.proceeds then stream_loop zero fmt_f rest st
    else
      let st := stream_set_status "processing" st
      let st := { st with inferred := st.inferred ++ [st.pcmf32] }
      if r.ret ≠ 0 then st
      else
        let n_segments := whisper_full_n_segments r.result
        let result_json :=
          if n_segments > 0 then to_output_json fmt_f r.result 0 n_segments true else []
        stream_loop zero fmt_f rest (call_handler "onStreamTranscription" [result_json] st)

/-- The function `stream_main`, one stream session. -/
def stream_main {α F : Type} (zero : α) (fmt_f : F → List Char) (rounds : List (Round α F))
    (st : StreamState α) : StreamState α :=
  let st := stream_set_status "loading" st
  let st := { st with pcmf32 := [] }
  let st := stream_loop zero fmt_f rounds st
  call_handler "onStreamStatus" ["stopped".toList] st

/-- Successive stream sessions of one process. -/
def stream_sessions {α F : Type} (zero : α) (fmt_f : F → List Char)
    (sessions : List (List (Round α F))) (st : StreamState α) : StreamState α :=
  sessions.foldl (fun s rounds => stream_main zero fmt_f rounds s) st

/-- The statuses delivered to the handler `onStreamStatus`, in order. -/
def delivered_statuses {α : Type} (st : StreamState α) : List (List (List Char)) :=
  (st.events.filter (fun e => e.handler = "onStreamStatus")).map (fun e => e.args)

/-! ## The batch worker (lines 347-366 and 447-473)

`abort_flag` and `is_running` are `std::atomic<bool>` and every access is
sequentially consistent, so an execution is an interleaving of the atomic
steps of the worker thread with the calls made by the calling thread. -/

/-- Where the worker thread stands. `idle`: no thread to join. `start`:
spawned, before `is_running = true`. `infer`: `whisper_full` has not returned.
`report`: `whisper_full` has returned, `abort_flag` has not been read yet.
`finish`: the terminal handler has been called, before `is_running = false`.
`done`: the lambda has returned and the thread waits to be joined. -/
inductive WorkerPc where
  | idle | start | infer | report | finish | done
  deriving DecidableEq, Repr

/-- The globals of the batch path, the local `result` of the worker and the
calls of `call_handler` in order. `g_context` is `true` for a loaded model. -/
structure BatchState where
  g_context : Bool
  abort_flag : Bool
  is_running : Bool
  pc : WorkerPc
  result : List Char
  events : List HandlerCall
  deriving DecidableEq, Repr

/-- A handler call made from inside `whisper_full`: `progress_callback` or
`new_segment_callback` on the result so far. -/
inductive Callback (F : Type) where
  | progress (percent : Int)
  | new_segment (ctx : whisper_context F) (n_new : Int)

/-- The handler call of a callback. -/
def Callback.call {F : Type} (fmt_f : F → List Char) : Callback F → HandlerCall
  | Callback.progress percent => progress_callback percent
  | Callback.new_segment ctx n_new => new_segment_callback fmt_f ctx n_new

/-- The atomic steps of an execution: a call of `cancel`, a call of
`transcribe`, and a step of the worker thread, which carries what
`whisper_full` does when the step is its return (the callbacks it made and the
result it leaves). -/
inductive Action (F : Type) where
  | cancel
  | transcribe
  | worker (callbacks : List (Callback F)) (ctx : whisper_context F)

/-- The function `bind_cancel`: the new state and the returned value. -/
def bind_cancel (st : BatchState) : BatchState × Int :=
  ({ st with abort_flag := true }, if st.is_running then 1 else 0)

/-- The function `bind_transcribe`: `none` while `g_worker.join ()` blocks,
else the new state and the returned value. -/
def bind_transcribe (st : BatchState) : Option (BatchState × Int) :=
  if st.pc ≠ WorkerPc.idle ∧ st.pc ≠ WorkerPc.done then none
  else
    let st := { st with pc := WorkerPc.idle }
    if !st.g_context then some (st, -1)
    else some ({ st with abort_flag := false, is_running := false, pc := WorkerPc.start }, 0)

/-- One step of the worker lambda (lines 450-469); `none` when no worker runs. -/
def worker_step {F : Type} (fmt_f : F → List Char) (callbacks : List (Callback F))
    (ctx : whisper_context F) (st : BatchState) : Option BatchState :=
  match st.pc with
  | WorkerPc.idle => none
  | WorkerPc.start => some { st with is_running := true, pc := WorkerPc.infer }
  | WorkerPc.infer =>
    some { st with
      events := st.events ++ callbacks.map (Callback.call fmt_f),
      result := to_output_json fmt_f ctx 0 (whisper_full_n_segments ctx) false,
      pc := WorkerPc.report }
  | WorkerPc.report =>
    if !st.abort_flag then
      some { st with events := st.events ++ [⟨"onTranscribed", [st.result]⟩],
                     pc := WorkerPc.finish }
    else
      some { st with events := st.events ++ [⟨"onCanceled", []⟩], pc := WorkerPc.finish }
  | WorkerPc.finish => some { st with is_running := false, pc := WorkerPc.done }
  | WorkerPc.done => none

/-- One step of an execution; `none` when the step cannot be taken. -/
def step {F : Type} (fmt_f : F → List Char) (st : BatchState) : Action F → Option BatchState
  | Action.cancel => some (bind_cancel st).1
  | Action.transcribe => (bind_transcribe st).map (fun r => r.1)
  | Action.worker callbacks ctx => worker_step fmt_f callbacks ctx st

/-- A sequence of steps. -/
def run {F : Type} (fmt_f : F → List Char) : BatchState → List (Action F) → Option BatchState
  | st, [] => some st
  | st, a :: rest => (step fmt_f st a).bind (fun st1 => run fmt_f st1 rest)

/-- The action is a call of `transcribe`. -/
def Action.is_transcribe {F : Type} : Action F → Bool
  | Action.transcribe => true
  | _ => false

/-- A terminal event: `onTranscribed` or `onCanceled`. -/
def is_terminal (e : HandlerCall) : Bool :=
  e.handler = "onTranscribed" || e.handler = "onCanceled"

/-- The number of worker steps left before the lambda returns. -/
def steps_left : WorkerPc → Nat
  | WorkerPc.idle => 0
  | WorkerPc.start => 4
  | WorkerPc.infer => 3
  | WorkerPc.report => 2
  | WorkerPc.finish => 1
  | WorkerPc.done => 0

/-- The invariant of a batch run, `base` being the events before the run and
`canceled` telling that `cancel` was called before `whisper_full` returned:
the events of the run hold no terminal event before the report and exactly one,
`onCanceled` or `onTranscribed`, after it, and a cancellation seen in time makes that event `onCanceled`. -/
def run_invariant (base : List HandlerCall) (canceled : Bool) (s : BatchState) : Prop :=
  ∃ add, s.events = base ++ add ∧ s.pc ≠ WorkerPc.idle ∧
    (2 ≤ steps_left s.pc →
      add.filter is_terminal = [] ∧ (canceled = true → s.abort_flag = true)) ∧
    (steps_left s.pc ≤ 1 →
      (add.filter is_terminal = [⟨"onCanceled", []⟩] ∨
          ∃ doc, add.filter is_terminal = [⟨"onTranscribed", [doc]⟩]) ∧
        (canceled = true → add.filter is_terminal = [⟨"onCanceled", []⟩]))

/-- A state with a loaded model and no worker. -/
def loaded_state : BatchState := ⟨true, false, false, WorkerPc.idle, [], []⟩

/-- An execution of one run: a `cancel` arrives while `whisper_full` runs. -/
def canceled_run : List (Action (List Char)) :=
  [Action.worker [] scenario_ctx, Action.cancel, Action.worker [] scenario_ctx,
    Action.worker [] scenario_ctx, Action.worker [] scenario_ctx]

/-! # Theorems -/

set_option maxRecDepth 1000000

/-! ### Machine integers and `to_timestamp` -/

theorem wrap64_of_fits (x : Int) (h0 : -(2 ^ 63) ≤ x) (h1 : x < 2 ^ 63) : wrap64 x = x := by
  unfold wrap64; omega

theorem wrap32_of_fits (x : Int) (h0 : -(2 ^ 31) ≤ x) (h1 : x < 2 ^ 31) : wrap32 x = x := by
  unfold wrap32; omega

theorem fmt_d_two_fin : ∀ n : Fin 100, fmt_d 2 (n.val : Int) = two_digits n.val := by decide

theorem fmt_d_three_fin : ∀ n : Fin 1000, fmt_d 3 (n.val : Int) = three_digits n.val := by decide

theorem fmt_d_two (n : Nat) (h : n < 100) : fmt_d 2 (n : Int) = two_digits n :=
  fmt_d_two_fin ⟨n, h⟩

theorem fmt_d_three (n : Nat) (h : n < 1000) : fmt_d 3 (n : Int) = three_digits n :=
  fmt_d_three_fin ⟨n, h⟩

theorem to_timestamp_nat (n : Nat) (h : n < 36000000) (comma : Bool) :
    to_timestamp (n : Int) comma =
      two_digits (10 * n / 3600000) ++ [':'] ++ two_digits (10 * n / 60000 % 60) ++ [':'] ++
        two_digits (10 * n / 1000 % 60) ++ [if comma then ',' else '.'] ++
        three_digits (10 * n % 1000) := by
  have e1 : mul64 (n : Int) 10 = ((10 * n : Nat) : Int) := by
    unfold mul64; rw [wrap64_of_fits] <;> push_cast <;> omega
  have e2 : div64 ((10 * n : Nat) : Int) (1000 * 60 * 60) = ((10 * n / 3600000 : Nat) : Int) := by
    unfold div64
    rw [Int.tdiv_eq_ediv (by omega) (by norm_num), wrap64_of_fits] <;> push_cast <;> omega
  have e3 : sub64 ((10 * n : Nat) : Int) (mul64 ((10 * n / 3600000 : Nat) : Int) (1000 * 60 * 60))
      = ((10 * n % 3600000 : Nat) : Int) := by
    have m : mul64 ((10 * n / 3600000 : Nat) : Int) (1000 * 60 * 60)
        = ((10 * n / 3600000 : Nat) : Int) * 3600000 := by
      unfold mul64; rw [wrap64_of_fits] <;> push_cast <;> omega
    rw [m]; unfold sub64
    rw [wrap64_of_fits] <;> push_cast <;> omega
  have e4 : div64 ((10 * n % 3600000 : Nat) : Int) (1000 * 60) = ((10 * n / 60000 % 60 : Nat) : Int) := by
    unfold div64
    rw [Int.tdiv_eq_ediv (by omega) (by norm_num), wrap64_of_fits] <;> push_cast <;> omega
  have e5 : sub64 ((10 * n % 3600000 : Nat) : Int) (mul64 ((10 * n / 60000 % 60 : Nat) : Int) (1000 * 60))
      = ((10 * n % 60000 : Nat) : Int) := by
    have m : mul64 ((10 * n / 60000 % 60 : Nat) : Int) (1000 * 60)
        = ((10 * n / 60000 % 60 : Nat) : Int) * 60000 := by
      unfold mul64; rw [wrap64_of_fits] <;> push_cast <;> omega
    rw [m]; unfold sub64
    rw [wrap64_of_fits] <;> push_cast <;> omega
  have e6 : div64 ((10 * n % 60000 : Nat) : Int) 1000 = ((10 * n / 1000 % 60 : Nat) : Int) := by
    unfold div64
    rw [Int.tdiv_eq_ediv (by omega) (by norm_num), wrap64_of_fits] <;> push_cast <;> omega
  have e7 : sub64 ((10 * n % 60000 : Nat) : Int) (mul64 ((10 * n / 1000 % 60 : Nat) : Int) 1000)
      = ((10 * n % 1000 : Nat) : Int) := by
    have m : mul64 ((10 * n / 1000 % 60 : Nat) : Int) 1000
        = ((10 * n / 1000 % 60 : Nat) : Int) * 1000 := by
      unfold mul64; rw [wrap64_of_fits] <;> push_cast <;> omega
    rw [m]; unfold sub64
    rw [wrap64_of_fits] <;> push_cast <;> omega
  unfold to_timestamp
  simp only [e1, e2, e3, e4, e5, e6, e7]
  rw [wrap32_of_fits _ (by omega) (by omega), wrap32_of_fits _ (by omega) (by omega),
    wrap32_of_fits _ (by omega) (by omega), wrap32_of_fits _ (by omega) (by omega)]
  rw [fmt_d_two _ (by omega), fmt_d_two _ (by omega), fmt_d_two _ (by omega),
    fmt_d_three _ (by omega)]
  cases comma <;> simp [two_digits, three_digits]

/-! ### The escaping function -/

theorem strlen_of_nul_free (s : List Char) (h : NUL ∉ s) : strlen s = s.length := by
  induction s with
  | nil => rfl
  | cons c cs ih =>
    have hc : c ≠ NUL := fun e => h (by simp [e])
    have hcs : NUL ∉ cs := fun e => h (List.mem_cons_of_mem _ e)
    simp [strlen, hc, ih hcs]

theorem count_loop_of_nul_free (s : List Char) (h : NUL ∉ s) (k : Nat) :
    count_loop s k = k + count_special s := by
  induction s generalizing k with
  | nil => simp [count_loop, count_special]
  | cons c cs ih =>
    have hc : c ≠ NUL := fun e => h (by simp [e])
    have hcs : NUL ∉ cs := fun e => h (List.mem_cons_of_mem _ e)
    by_cases hs : c = QUOTE ∨ c = BACKSLASH
    · have : count_special (c :: cs) = count_special cs + 1 := by
        simp [count_special, List.filter_cons, hs]
      simp only [count_loop, hc, hs, if_true, if_false, ih hcs, this]; omega
    · have : count_special (c :: cs) = count_special cs := by
        simp [count_special, List.filter_cons, hs]
      simp only [count_loop, hc, hs, if_false, ih hcs, this]

theorem escape_chars_length (s : List Char) :
    (s.flatMap escape_char).length = s.length + count_special s := by
  induction s with
  | nil => simp [count_special]
  | cons c cs ih =>
    by_cases hs : c = QUOTE ∨ c = BACKSLASH
    · have : count_special (c :: cs) = count_special cs + 1 := by
        simp [count_special, List.filter_cons, hs]
      simp only [List.flatMap_cons, List.length_append, ih, this, escape_char, hs, if_true,
        List.length_cons, List.length_nil]; omega
    · have : count_special (c :: cs) = count_special cs := by
        simp [count_special, List.filter_cons, hs]
      simp only [List.flatMap_cons, List.length_append, ih, this, escape_char, hs, if_false,
        List.length_cons, List.length_nil]; omega

theorem set_append_replicate (pre : List Char) (m : Nat) (c : Char) :
    (pre ++ List.replicate (m + 1) NUL).set pre.length c = (pre ++ [c]) ++ List.replicate m NUL := by
  induction pre with
  | nil => simp [List.replicate_succ]
  | cons p ps ih => simpa using ih

theorem write_loop_of_nul_free (s : List Char) (h : NUL ∉ s) (pre : List Char) (m : Nat)
    (hm : (s.flatMap escape_char).length ≤ m) :
    write_loop s (pre ++ List.replicate m NUL) pre.length =
      (pre ++ s.flatMap escape_char ++ List.replicate (m - (s.flatMap escape_char).length) NUL,
        pre.length + (s.flatMap escape_char).length) := by
  induction s generalizing pre m with
  | nil => simp [write_loop]
  | cons c cs ih =>
    have hc : c ≠ NUL := fun e => h (by simp [e])
    have hcs : NUL ∉ cs := fun e => h (List.mem_cons_of_mem _ e)
    by_cases hs : c = QUOTE ∨ c = BACKSLASH
    · have hlen : (List.flatMap (c :: cs) escape_char).length
          = (cs.flatMap escape_char).length + 2 := by
        simp [List.flatMap_cons, escape_char, hs]
      obtain ⟨m2, rfl⟩ : ∃ m2, m = m2 + 2 := ⟨m - 2, by omega⟩
      have s1 : ((pre ++ List.replicate (m2 + 2) NUL).set pre.length BACKSLASH).set
          (pre.length + 1) c = (pre ++ [BACKSLASH, c]) ++ List.replicate m2 NUL := by
        rw [set_append_replicate]
        have := set_append_replicate (pre ++ [BACKSLASH]) m2 c
        simp only [List.length_append, List.length_cons, List.length_nil] at this
        rw [this]; simp
      have hl : (pre ++ [BACKSLASH, c]).length = pre.length + 2 := by simp
      have := ih hcs (pre ++ [BACKSLASH, c]) m2 (by omega)
      rw [hl] at this
      simp only [write_loop, hc, hs, if_true, if_false, s1, this, hlen]
      simp [List.flatMap_cons, escape_char, hs]; omega
    · have hlen : (List.flatMap (c :: cs) escape_char).length
          = (cs.flatMap escape_char).length + 1 := by
        simp [List.flatMap_cons, escape_char, hs]
      obtain ⟨m1, rfl⟩ : ∃ m1, m = m1 + 1 := ⟨m - 1, by omega⟩
      have hl : (pre ++ [c]).length = pre.length + 1 := by simp
      have := ih hcs (pre ++ [c]) m1 (by omega)
      rw [hl] at this
      simp only [write_loop, hc, hs, if_false, set_append_replicate, this, hlen]
      simp [List.flatMap_cons, escape_char, hs]; omega

theorem escape_chars_nul_free (s : List Char) (h : NUL ∉ s) : NUL ∉ s.flatMap escape_char := by
  intro hmem
  rw [List.mem_flatMap] at hmem
  obtain ⟨c, hc, hin⟩ := hmem
  unfold escape_char at hin
  have hne : c ≠ NUL := fun e => h (e ▸ hc)
  split at hin
  · simp only [List.mem_cons, List.mem_singleton, List.mem_nil_iff, or_false] at hin
    rcases hin with e | e
    · exact absurd e (by decide)
    · exact hne e.symm
  · simp only [List.mem_singleton] at hin
    exact hne hin.symm

theorem c_str_append_nul (s : List Char) (h : NUL ∉ s) (k : Nat) :
    c_str (s ++ List.replicate (k + 1) NUL) = s := by
  induction s with
  | nil => simp [c_str, List.replicate_succ, List.takeWhile]
  | cons c cs ih =>
    have hc : c ≠ NUL := fun e => h (by simp [e])
    have hcs : NUL ∉ cs := fun e => h (List.mem_cons_of_mem _ e)
    have := ih hcs
    unfold c_str at this ⊢
    simp only [List.cons_append, List.takeWhile, hc, ne_eq, not_false_eq_true, decide_True]
    exact congrArg (c :: ·) this

theorem escape_eq_flatMap (s : List Char) (h : NUL ∉ s) :
    escape_double_quotes_and_backslashes s = s.flatMap escape_char := by
  unfold escape_double_quotes_and_backslashes escape_buffer
  simp only [strlen_of_nul_free s h, count_loop_of_nul_free s h]
  have hw := write_loop_of_nul_free s h [] (s.length + 1 + count_special s)
    (by rw [escape_chars_length]; omega)
  simp only [List.nil_append, List.length_nil] at hw
  rw [hw]
  simp only
  have : s.length + 1 + count_special s - (s.flatMap escape_char).length = 0 + 1 := by
    rw [escape_chars_length]; omega
  rw [this]
  exact c_str_append_nul _ (escape_chars_nul_free s h) 0

theorem unescape_plain (c : Char) (r : List Char) (h : c ≠ BACKSLASH) :
    unescape (c :: r) = c :: unescape r := by
  cases r <;> simp [unescape, h]

theorem unescape_flatMap (s : List Char) : unescape (s.flatMap escape_char) = s := by
  induction s with
  | nil => simp [unescape]
  | cons c cs ih =>
    by_cases hs : c = QUOTE ∨ c = BACKSLASH
    · simp [List.flatMap_cons, escape_char, hs, unescape, ih]
    · have hb : c ≠ BACKSLASH := fun e => hs (Or.inr e)
      simp [List.flatMap_cons, escape_char, hs, unescape_plain _ _ hb, ih]

theorem no_bare_plain (c : Char) (r : List Char) (h : ¬ (c = QUOTE ∨ c = BACKSLASH)) :
    no_bare_special (c :: r) = no_bare_special r := by
  have hq : c ≠ QUOTE := fun e => h (Or.inl e)
  have hb : c ≠ BACKSLASH := fun e => h (Or.inr e)
  cases r <;> simp [no_bare_special, hq, hb]

theorem no_bare_flatMap (s : List Char) : no_bare_special (s.flatMap escape_char) = true := by
  induction s with
  | nil => simp [no_bare_special]
  | cons c cs ih =>
    by_cases hs : c = QUOTE ∨ c = BACKSLASH
    · simp [List.flatMap_cons, escape_char, hs, no_bare_special, ih]
    · simp [List.flatMap_cons, escape_char, hs, no_bare_plain _ _ hs, ih]

/-! ### The encoder in batch mode -/

theorem digitChar_large (m : Nat) : Nat.digitChar (m + 16) = '*' := rfl

theorem digitChar_plain (n : Nat) : plain_char (Nat.digitChar n) := by
  by_cases h : n < 16
  · interval_cases n <;> decide
  · obtain ⟨m, rfl⟩ : ∃ m, n = m + 16 := ⟨n - 16, by omega⟩
    rw [digitChar_large]; decide

theorem toDigitsCore_plain (fuel n : Nat) (ds : List Char) (h : ∀ c ∈ ds, plain_char c) :
    ∀ c ∈ Nat.toDigitsCore 10 fuel n ds, plain_char c := by
  induction fuel generalizing n ds with
  | zero => simpa [Nat.toDigitsCore] using h
  | succ f ih =>
    have hd : ∀ c ∈ Nat.digitChar (n % 10) :: ds, plain_char c := by
      intro c hc
      rcases List.mem_cons.mp hc with e | e
      · exact e ▸ digitChar_plain _
      · exact h c e
    unfold Nat.toDigitsCore
    simp only
    split
    · exact hd
    · exact ih _ _ hd

theorem toDigits_plain (n : Nat) : ∀ c ∈ Nat.toDigits 10 n, plain_char c :=
  toDigitsCore_plain _ _ _ (by simp)

theorem fmt_d_plain (w : Nat) (v : Int) : ∀ c ∈ fmt_d w v, plain_char c := by
  intro c hc
  unfold fmt_d at hc
  simp only [List.mem_append] at hc
  rcases hc with (hc | hc) | hc
  · split at hc
    · simp only [List.mem_singleton] at hc; subst hc; decide
    · simp at hc
  · rw [List.mem_replicate] at hc; rw [hc.2]; decide
  · exact toDigits_plain _ c hc

theorem to_timestamp_plain (t : Int) (comma : Bool) : ∀ c ∈ to_timestamp t comma, plain_char c := by
  intro c hc
  unfold to_timestamp at hc
  have hc := List.mem_of_mem_take hc
  simp only [List.mem_append] at hc
  rcases hc with (((((hc | hc) | hc) | hc) | hc) | hc) | hc
  · exact fmt_d_plain _ _ c hc
  · simp only [List.mem_singleton] at hc; subst hc; decide
  · exact fmt_d_plain _ _ c hc
  · simp only [List.mem_singleton] at hc; subst hc; decide
  · exact fmt_d_plain _ _ c hc
  · cases comma <;> simp at hc <;> subst hc <;> decide
  · exact fmt_d_plain _ _ c hc

theorem flatMap_escape_of_plain (s : List Char) (h : ∀ c ∈ s, plain_char c) :
    s.flatMap escape_char = s := by
  induction s with
  | nil => rfl
  | cons c cs ih =>
    have hc := h c (by simp)
    have hs : ¬ (c = QUOTE ∨ c = BACKSLASH) := fun e => e.elim hc.2.1 hc.2.2
    simp [List.flatMap_cons, escape_char, hs, ih (fun d hd => h d (List.mem_cons_of_mem _ hd))]

theorem escape_of_plain (s : List Char) (h : ∀ c ∈ s, plain_char c) :
    escape_double_quotes_and_backslashes s = s := by
  rw [escape_eq_flatMap s (fun e => (h _ e).1 rfl), flatMap_escape_of_plain s h]

theorem escape_to_timestamp (t : Int) (comma : Bool) :
    escape_double_quotes_and_backslashes (to_timestamp t comma) = to_timestamp t comma :=
  escape_of_plain _ (to_timestamp_plain t comma)

theorem mul64_ten_of_fits (t : Int) (h : ms_fits t) : mul64 t 10 = 10 * t := by
  unfold mul64; rw [wrap64_of_fits] <;> unfold ms_fits at h <;> omega

theorem token_json_eq {F : Type} (fmt_f : F → List Char) (ctx : whisper_context F)
    (token : whisper_token_data F) (j n : Int) (hdom : token_in_domain token) :
    token_json fmt_f ctx token j n =
      token_document fmt_f ctx token ++ (if j = n - 1 then [] else [',']) := by
  obtain ⟨f0, f1, hdtw⟩ := hdom
  have h1 : (token.t0 > -1 ∧ token.t1 > -1) ↔ (0 ≤ token.t0 ∧ 0 ≤ token.t1) := by omega
  have h2 : ¬ token.t_dtw > -1 := by omega
  have h3 : token.t_dtw ≤ -1 := by omega
  have h4 : ¬ 0 ≤ token.t_dtw := by omega
  unfold token_json token_document token_members
  simp only [h1, h2, h3, h4]
  by_cases a : 0 ≤ token.t0 ∧ 0 ≤ token.t1 <;> by_cases c : j = n - 1 <;>
    simp [a, c, json_object, json_member, json_string, comma_separated, times_members,
      times_o, value_s, value_i, value_f, start_obj, end_obj,
      start_value, end_value, escape_to_timestamp, mul64_ten_of_fits _ f0,
      mul64_ten_of_fits _ f1]

theorem token_loop_eq {F : Type} (fmt_f : F → List Char) (ctx : whisper_context F)
    (tokens : List (whisper_token_data F)) (j n : Int) (hn : n = j + tokens.length)
    (hdom : ∀ token ∈ tokens, token_in_domain token) :
    token_loop fmt_f ctx n j tokens = comma_separated (tokens.map (token_document fmt_f ctx)) := by
  induction tokens generalizing j with
  | nil => rfl
  | cons token rest ih =>
    have hd := hdom token (by simp)
    cases rest with
    | nil =>
      have hj : j = n - 1 := by simp at hn; omega
      rw [token_loop, token_json_eq fmt_f ctx token j n hd]
      simp [hj, token_loop, comma_separated]
    | cons r rs =>
      have hj : ¬ j = n - 1 := by simp at hn; omega
      have := ih (j + 1) (by simp at hn ⊢; omega)
        (fun t ht => hdom t (List.mem_cons_of_mem _ ht))
      rw [token_loop, this, token_json_eq fmt_f ctx token j n hd]
      simp [hj, comma_separated]

theorem range_loop_comma (m a : Nat) (body g : Nat → List Char)
    (h : ∀ k, a ≤ k → k < a + m → body k = g k ++ (if k + 1 = a + m then [] else [','])) :
    (List.range' a m).flatMap body = comma_separated ((List.range' a m).map g) := by
  induction m generalizing a with
  | zero => rfl
  | succ m ih =>
    cases m with
    | zero =>
      have := h a (le_refl _) (by omega)
      simp [List.range', this, comma_separated]
    | succ m =>
      have h0 := h a (le_refl _) (by omega)
      have hrec := ih (a + 1) (fun k hk1 hk2 => by
        rw [h k (by omega) (by omega)]
        have : (k + 1 = a + (m + 1 + 1)) ↔ (k + 1 = a + 1 + (m + 1)) := by omega
        simp only [this])
      rw [List.range'_succ, List.flatMap_cons, hrec, h0]
      have : ¬ (a + 1 = a + (m + 1 + 1)) := by omega
      simp only [this, if_false]
      simp [List.range'_succ, comma_separated]

theorem map_range_getD {β : Type} (l : List β) (d : β) (n0 m : Nat) (h : n0 + m ≤ l.length)
    (f : β → List Char) :
    (List.range' 0 m).map (fun k => f (l.getD (n0 + k) d)) = ((l.drop n0).take m).map f := by
  apply List.ext_getElem
  · simp; omega
  · intro k h1 h2
    simp at h1
    simp [List.getD_eq_getElem?_getD, List.getElem?_eq_getElem (show n0 + k < l.length by omega)]

theorem segment_json_batch_eq {F : Type} (fmt_f : F → List Char) (ctx : whisper_context F)
    (n1 : Int) (i : Nat) (hfit : segment_in_domain (ctx.segments.getD i ⟨[], 0, 0, []⟩)) :
    segment_json fmt_f ctx n1 false (i : Int) =
      segment_document fmt_f ctx (ctx.segments.getD i ⟨[], 0, 0, []⟩) ++
        (if (i : Int) = n1 - 1 then [] else [',']) := by
  have hseg : whisper_full_get_segment ctx (i : Int) = ctx.segments.getD i ⟨[], 0, 0, []⟩ := by
    unfold whisper_full_get_segment
    rw [if_neg (by omega)]; simp
  unfold segment_json segment_document
  simp only [hseg]
  generalize ctx.segments.getD i ⟨[], 0, 0, []⟩ = seg at hfit ⊢
  rw [token_loop_eq fmt_f ctx _ 0 _ (by simp) hfit.2.2]
  by_cases c : (i : Int) = n1 - 1 <;>
    simp [c, json_object, json_member, json_string, json_array, comma_separated, times_members,
      times_o, value_s, value_i, start_obj, end_obj, start_arr, end_arr,
      start_value, end_value, escape_to_timestamp, mul64_ten_of_fits _ hfit.1,
      mul64_ten_of_fits _ hfit.2.1]

theorem batch_output_eq_document {F : Type} (fmt_f : F → List Char) (ctx : whisper_context F)
    (n0 n1 : Nat) (h01 : n0 ≤ n1) (h1 : n1 ≤ ctx.segments.length)
    (hfit : ∀ seg ∈ segment_range ctx n0 n1, segment_in_domain seg) :
    to_output_json fmt_f ctx (n0 : Int) (n1 : Int) false = batch_document fmt_f ctx n0 n1 := by
  have hm : ((n1 : Int) - (n0 : Int)).toNat = n1 - n0 := by omega
  have hloop : (List.range (n1 - n0)).flatMap
      (fun k => segment_json fmt_f ctx (n1 : Int) false ((n0 : Int) + (k : Nat))) =
      comma_separated ((segment_range ctx n0 n1).map (segment_document fmt_f ctx)) := by
    rw [List.range_eq_range', segment_range,
      ← map_range_getD ctx.segments ⟨[], 0, 0, []⟩ n0 (n1 - n0) (by omega)
        (segment_document fmt_f ctx)]
    apply range_loop_comma
    intro k _ hk
    have hmem : ctx.segments.getD (n0 + k) ⟨[], 0, 0, []⟩ ∈ segment_range ctx n0 n1 := by
      unfold segment_range
      rw [List.mem_iff_getElem]
      refine ⟨k, by simp; omega, ?_⟩
      simp [List.getD_eq_getElem?_getD,
        List.getElem?_eq_getElem (show n0 + k < ctx.segments.length by omega)]
    have := segment_json_batch_eq fmt_f ctx (n1 : Int) (n0 + k) (hfit _ hmem)
    rw [show ((n0 : Int) + (k : Int)) = ((n0 + k : Nat) : Int) by push_cast; rfl, this]
    have e : (((n0 + k : Nat) : Int) = (n1 : Int) - 1) ↔ (k + 1 = 0 + (n1 - n0)) := by omega
    simp only [e]
  unfold to_output_json batch_document
  rw [hm, hloop]
  simp [json_object, json_member, json_string, json_array, comma_separated,
    value_s, start_obj, end_obj, start_arr, end_arr, start_value]

/-! ### The batch worker -/

theorem run_append {F : Type} (fmt_f : F → List Char) (s : BatchState)
    (pre post : List (Action F)) :
    run fmt_f s (pre ++ post) = (run fmt_f s pre).bind (fun sm => run fmt_f sm post) := by
  induction pre generalizing s with
  | nil => rfl
  | cons a rest ih =>
    simp only [List.cons_append, run]
    cases step fmt_f s a with
    | none => rfl
    | some s1 => simpa using ih s1

theorem callbacks_not_terminal {F : Type} (fmt_f : F → List Char) (cbs : List (Callback F)) :
    (cbs.map (Callback.call fmt_f)).filter is_terminal = [] := by
  induction cbs with
  | nil => rfl
  | cons c rest ih =>
    cases c <;>
      simp [Callback.call, progress_callback, new_segment_callback, is_terminal, ih]

theorem step_invariant {F : Type} (fmt_f : F → List Char) (base : List HandlerCall)
    (canceled : Bool) (s s1 : BatchState) (a : Action F) (ha : a.is_transcribe = false)
    (hs : step fmt_f s a = some s1) (hinv : run_invariant base canceled s) :
    run_invariant base canceled s1 := by
  obtain ⟨add, hev, hpc, h2, h1⟩ := hinv
  cases a with
  | transcribe => simp [Action.is_transcribe] at ha
  | cancel =>
    simp only [step, bind_cancel, Option.some.injEq] at hs
    subst hs
    exact ⟨add, hev, hpc, fun h => ⟨(h2 h).1, fun _ => rfl⟩, h1⟩
  | worker cbs ctx =>
    simp only [step, worker_step] at hs
    cases hp : s.pc with
    | idle => exact absurd hp hpc
    | done => rw [hp] at hs; simp at hs
    | start =>
      rw [hp] at hs h2
      simp only [Option.some.injEq] at hs
      subst hs
      exact ⟨add, hev, by simp, fun _ => h2 (by decide), fun h => by simp [steps_left] at h⟩
    | infer =>
      rw [hp] at hs h2
      simp only [Option.some.injEq] at hs
      subst hs
      refine ⟨add ++ cbs.map (Callback.call fmt_f), by simp [hev], by simp,
        fun _ => ⟨?_, (h2 (by decide)).2⟩, fun h => by simp [steps_left] at h⟩
      rw [List.filter_append, (h2 (by decide)).1, callbacks_not_terminal]; rfl
    | report =>
      rw [hp] at hs h2
      have h2 := h2 (by decide)
      by_cases hf : s.abort_flag = true
      · simp only [hf, Bool.not_true, Bool.false_eq_true, if_false, Option.some.injEq] at hs
        subst hs
        refine ⟨add ++ [⟨"onCanceled", []⟩], by simp [hev], by simp,
          fun h => by simp [steps_left] at h, fun _ => ?_⟩
        rw [List.filter_append, h2.1]
        exact ⟨Or.inl (by decide), fun _ => by decide⟩
      · have hf2 : s.abort_flag = false := by simpa using hf
        have hc : canceled ≠ true := fun e => hf (h2.2 e)
        simp only [hf2, Bool.not_false, if_true, Option.some.injEq] at hs
        subst hs
        refine ⟨add ++ [⟨"onTranscribed", [s.result]⟩], by simp [hev], by simp,
          fun h => by simp [steps_left] at h, fun _ => ?_⟩
        rw [List.filter_append, h2.1]
        exact ⟨Or.inr ⟨s.result, by simp [is_terminal]⟩, fun e => absurd e hc⟩
    | finish =>
      rw [hp] at hs h1
      simp only [Option.some.injEq] at hs
      subst hs
      exact ⟨add, hev, by simp, fun h => by simp [steps_left] at h, fun _ => h1 (by decide)⟩

theorem run_invariant_preserved {F : Type} (fmt_f : F → List Char) (base : List HandlerCall)
    (canceled : Bool) (acts : List (Action F)) (hacts : ∀ a ∈ acts, a.is_transcribe = false)
    (s s2 : BatchState) (hrun : run fmt_f s acts = some s2)
    (hinv : run_invariant base canceled s) : run_invariant base canceled s2 := by
  induction acts generalizing s with
  | nil => simp only [run, Option.some.injEq] at hrun; exact hrun ▸ hinv
  | cons a rest ih =>
    simp only [run] at hrun
    cases hs : step fmt_f s a with
    | none => rw [hs] at hrun; simp at hrun
    | some s1 =>
      rw [hs] at hrun
      exact ih (fun b hb => hacts b (List.mem_cons_of_mem _ hb)) s1 hrun
        (step_invariant fmt_f base canceled s s1 a (hacts a (by simp)) hs hinv)

theorem run_flag_monotone {F : Type} (fmt_f : F → List Char) (acts : List (Action F))
    (hacts : ∀ a ∈ acts, a.is_transcribe = false) (s s2 : BatchState)
    (hrun : run fmt_f s acts = some s2) (hflag : s.abort_flag = true) :
    s2.abort_flag = true := by
  induction acts generalizing s with
  | nil => simp only [run, Option.some.injEq] at hrun; exact hrun ▸ hflag
  | cons a rest ih =>
    simp only [run] at hrun
    cases hs : step fmt_f s a with
    | none => rw [hs] at hrun; simp at hrun
    | some s1 =>
      rw [hs] at hrun
      refine ih (fun b hb => hacts b (List.mem_cons_of_mem _ hb)) s1 hrun ?_
      cases a with
      | transcribe =>
        exact absurd (hacts Action.transcribe (by simp)) (by simp [Action.is_transcribe])
      | cancel => simp only [step, bind_cancel, Option.some.injEq] at hs; subst hs; rfl
      | worker cbs ctx =>
        simp only [step, worker_step] at hs
        cases hp : s.pc <;> rw [hp] at hs <;> simp [hflag] at hs <;> subst hs <;> rfl

theorem bind_transcribe_started (s0 s1 : BatchState)
    (hstart : bind_transcribe s0 = some (s1, 0)) :
    s1.events = s0.events ∧ s1.pc = WorkerPc.start ∧ s1.abort_flag = false := by
  unfold bind_transcribe at hstart
  split at hstart
  · simp at hstart
  · simp only at hstart
    split at hstart
    · simp at hstart
    · simp only [Option.some.injEq, Prod.mk.injEq, and_true] at hstart
      subst hstart
      exact ⟨rfl, rfl, rfl⟩

theorem worker_progress {F : Type} (fmt_f : F → List Char) (s : BatchState)
    (h1 : s.pc ≠ WorkerPc.idle) (h2 : s.pc ≠ WorkerPc.done)
    (cbs : List (Callback F)) (ctx : whisper_context F) :
    ∃ s3, step fmt_f s (Action.worker cbs ctx) = some s3 ∧
      steps_left s3.pc < steps_left s.pc := by
  simp only [step, worker_step]
  cases hp : s.pc with
  | idle => exact absurd hp h1
  | done => exact absurd hp h2
  | start => exact ⟨_, rfl, by simp [steps_left]⟩
  | infer => exact ⟨_, rfl, by simp [steps_left]⟩
  | finish => exact ⟨_, rfl, by simp [steps_left]⟩
  | report =>
    by_cases hf : s.abort_flag = true
    · simp only [hf, Bool.not_true, Bool.false_eq_true, if_false]
      exact ⟨_, rfl, by simp [steps_left]⟩
    · have hf2 : s.abort_flag = false := by simpa using hf
      simp only [hf2, Bool.not_false, if_true]
      exact ⟨_, rfl, by simp [steps_left]⟩

/-- C2. A batch run started by a call of `transcribe` that returned 0, followed
up to the next call of `transcribe` (which cannot return before the run ends):
the events of the run hold at most one terminal event at any time and exactly
one, `onTranscribed` or `onCanceled`, once the worker has finished; the worker
can always take its next step, so it does finish; when `cancel` is called
while the worker has not yet returned from `whisper_full`, the terminal event
is `onCanceled` and no `onTranscribed` is emitted; `abort_flag` is clear when
the run starts and, once set, stays set for the rest of the run. -/
theorem batch_run_terminal_event {F : Type} (fmt_f : F → List Char) (s0 s1 s2 : BatchState)
    (acts : List (Action F))
    (hstart : bind_transcribe s0 = some (s1, 0))
    (hacts : ∀ a ∈ acts, a.is_transcribe = false)
    (hrun : run fmt_f s1 acts = some s2) :
    ∃ new, s2.events = s0.events ++ new ∧
      (new.filter is_terminal).length ≤ 1 ∧
      (s2.pc = WorkerPc.done →
        new.filter is_terminal = [⟨"onCanceled", []⟩] ∨
          ∃ doc, new.filter is_terminal = [⟨"onTranscribed", [doc]⟩]) ∧
      (s2.pc ≠ WorkerPc.done → ∀ cbs ctx, ∃ s3,
        step fmt_f s2 (Action.worker cbs ctx) = some s3 ∧
          steps_left s3.pc < steps_left s2.pc) ∧
      (∀ pre post sm, acts = pre ++ Action.cancel :: post → run fmt_f s1 pre = some sm →
        sm.pc = WorkerPc.start ∨ sm.pc = WorkerPc.infer → s2.pc = WorkerPc.done →
        new.filter is_terminal = [⟨"onCanceled", []⟩]) ∧
      s1.abort_flag = false ∧
      (∀ pre post sm, acts = pre ++ post → run fmt_f s1 pre = some sm →
        sm.abort_flag = true → s2.abort_flag = true) := by
  obtain ⟨hev, hpc, hflag⟩ := bind_transcribe_started s0 s1 hstart
  have hinv0 : ∀ c, (c = true → s1.abort_flag = true) → run_invariant s0.events c s1 :=
    fun c hc => ⟨[], by simp [hev], by simp [hpc],
      fun _ => ⟨rfl, hc⟩, fun h => by simp [hpc, steps_left] at h⟩
  obtain ⟨new, hnew, hidle, h2, h1⟩ := run_invariant_preserved fmt_f s0.events false acts hacts
    s1 s2 hrun (hinv0 false (by simp))
  refine ⟨new, hnew, ?_, ?_, ?_, ?_, hflag, ?_⟩
  · by_cases h : 2 ≤ steps_left s2.pc
    · simp [(h2 h).1]
    · rcases (h1 (by omega)).1 with e | ⟨doc, e⟩ <;> simp [e]
  · intro hd
    exact (h1 (by simp [hd, steps_left])).1
  · intro hd cbs ctx
    exact worker_progress fmt_f s2 hidle hd cbs ctx
  · intro pre post sm hsplit hpre hsm hd
    have hacts1 : ∀ a ∈ pre, a.is_transcribe = false :=
      fun a ha => hacts a (by rw [hsplit]; exact List.mem_append_left _ ha)
    have hacts2 : ∀ a ∈ post, a.is_transcribe = false :=
      fun a ha => hacts a (by
        rw [hsplit]; exact List.mem_append_right _ (List.mem_cons_of_mem _ ha))
    obtain ⟨add, hadd, hidle1, g2, _⟩ := run_invariant_preserved fmt_f s0.events false pre
      hacts1 s1 sm hpre (hinv0 false (by simp))
    have hsteps : 2 ≤ steps_left sm.pc := by rcases hsm with e | e <;> simp [e, steps_left]
    have hpost : run fmt_f (bind_cancel sm).1 post = some s2 := by
      rw [hsplit, run_append, hpre] at hrun
      simpa [run, step] using hrun
    have hinv1 : run_invariant s0.events true (bind_cancel sm).1 :=
      ⟨add, hadd, hidle1, fun _ => ⟨(g2 hsteps).1, fun _ => rfl⟩,
        fun h => absurd h (by simp only [bind_cancel]; omega)⟩
    obtain ⟨new2, hnew2, _, _, k1⟩ := run_invariant_preserved fmt_f s0.events true post
      hacts2 _ s2 hpost hinv1
    have : new2 = new := List.append_cancel_left (hnew2.symm.trans hnew)
    subst this
    exact (k1 (by simp [hd, steps_left])).2 rfl
  · intro pre post sm hsplit hpre hsm
    have hacts2 : ∀ a ∈ post, a.is_transcribe = false :=
      fun a ha => hacts a (by rw [hsplit]; exact List.mem_append_right _ ha)
    have hpost : run fmt_f sm post = some s2 := by
      rw [hsplit, run_append, hpre] at hrun
      simpa using hrun
    exact run_flag_monotone fmt_f post hacts2 sm s2 hpost hsm



/-- Witness of C2: a loaded model, `transcribe`, then a `cancel` between the
first and the second step of the worker. -/
theorem batch_run_terminal_event_witness :
    bind_transcribe loaded_state =
        some (⟨true, false, false, WorkerPc.start, [], []⟩, 0) ∧
      (∀ a ∈ canceled_run, a.is_transcribe = false) ∧
      run (fun p => p) ⟨true, false, false, WorkerPc.start, [], []⟩ canceled_run =
        some ⟨true, true, false, WorkerPc.done,
          to_output_json (fun p => p) scenario_ctx 0 1 false, [⟨"onCanceled", []⟩]⟩ ∧
      ∃ new, ([⟨"onCanceled", []⟩] : List HandlerCall) = loaded_state.events ++ new ∧
        (new.filter is_terminal).length ≤ 1 :=
  ⟨by decide, by decide, by decide,
    (batch_run_terminal_event (fun p => p) loaded_state
      ⟨true, false, false, WorkerPc.start, [], []⟩
      ⟨true, true, false, WorkerPc.done,
        to_output_json (fun p => p) scenario_ctx 0 1 false, [⟨"onCanceled", []⟩]⟩
      canceled_run (by decide) (by decide) (by decide)).imp
      (fun _ h => ⟨h.1, h.2.1⟩)⟩

/-! ### The claims on the encoder, the timestamps and the escaping -/

/-- C3, amended. In batch mode, for a range `0 ≤ n0 ≤ n1 ≤ n_segments` whose
segments and tokens have times `t` with `10 * t` in `int64_t` and whose tokens
carry no alignment timestamp, the output is the document with
`result.language` and the array `transcription` of the `n1 - n0` segment
objects in index order, the object of rank `k` being that of segment `n0 + k`
with `offsets` equal to `10 * t0` and `10 * t1`, `timestamps` equal to
`to_timestamp` of `t0` and `t1` with a comma, the escaped text and the array
of the token objects, each with the id of its token. -/
theorem to_output_json_batch {F : Type} (fmt_f : F → List Char) (ctx : whisper_context F)
    (n0 n1 : Nat) (h01 : n0 ≤ n1) (h1 : n1 ≤ ctx.segments.length)
    (hfit : ∀ seg ∈ segment_range ctx n0 n1, segment_in_domain seg) :
    to_output_json fmt_f ctx (n0 : Int) (n1 : Int) false = batch_document fmt_f ctx n0 n1 ∧
      ((segment_range ctx n0 n1).map (segment_document fmt_f ctx)).length = n1 - n0 ∧
      ∀ k, k < n1 - n0 → (segment_range ctx n0 n1)[k]? = ctx.segments[n0 + k]? := by
  refine ⟨batch_output_eq_document fmt_f ctx n0 n1 h01 h1 hfit, ?_, ?_⟩
  · simp [segment_range]; omega
  · intro k hk
    simp [segment_range, List.getElem?_take, hk]

/-- Witness of C3: the encoding scenario, one segment `[100, 300]` with text
`hi` and one token of id 7, over the range `[0, 1)`. -/
theorem to_output_json_batch_witness :
    (∀ seg ∈ segment_range scenario_ctx 0 1, segment_in_domain seg) ∧
      to_output_json (fun p => p) scenario_ctx 0 1 false =
        batch_document (fun p => p) scenario_ctx 0 1 ∧
      batch_document (fun p => p) scenario_ctx 0 1 =
        ("\x7b\"result\": \x7b\"language\": \"en\"\x7d,\"transcription\": [\x7b" ++
          "\"timestamps\": \x7b\"from\": \"00:00:01,000\",\"to\": \"00:00:03,000\"\x7d," ++
          "\"offsets\": \x7b\"from\": 1000,\"to\": 3000\x7d,\"text\": \"hi\"," ++
          "\"tokens\": [\x7b\"text\": \"hi\",\"id\": 7,\"p\": 0.9\x7d]\x7d]\x7d").toList :=
  ⟨by decide,
    (to_output_json_batch (fun p => p) scenario_ctx 0 1 (by decide) (by decide) (by decide)).1,
    by decide⟩

/-- C3 as stated fails: for a segment that starts at 922337203685477581 ticks
the member `offsets.from` is -9223372036854775806, not `10 * t0`, so the output
is not the document; and for a token with an alignment timestamp the object
`dtw` is closed after a comma, so the output is not the document either. -/
theorem to_output_json_batch_counterexample :
    to_output_json (fun p => p) overflow_ctx 0 1 false =
        ("\x7b\"result\": \x7b\"language\": \"en\"\x7d,\"transcription\": [\x7b" ++
          "\"timestamps\": \x7b\"from\": \"2047687697:-12:-55,-806\"," ++
          "\"to\": \"00:00:00,000\"\x7d," ++
          "\"offsets\": \x7b\"from\": -9223372036854775806,\"to\": 0\x7d," ++
          "\"text\": \"hi\",\"tokens\": []\x7d]\x7d").toList ∧
      to_output_json (fun p => p) overflow_ctx 0 1 false ≠
        batch_document (fun p => p) overflow_ctx 0 1 ∧
      to_output_json (fun p => p) dtw_ctx 0 1 false ≠
        batch_document (fun p => p) dtw_ctx 0 1 := by
  decide

/-- C4, at a token with an alignment timestamp (`t_dtw = 1`): the object `dtw`
ends with a comma before its closing brace. -/
theorem token_json_dtw_trailing_comma :
    token_json (fun p => p) dtw_ctx ⟨7, "0.9".toList, -1, -1, 1⟩ 0 1 =
      ("\x7b\"text\": \"hi\",\"id\": 7,\"p\": 0.9," ++
        "\"dtw\": \x7b\"timestamp\": \"00:00:00,010\",\"offset\": 10,\x7d\x7d").toList := by
  decide

/-- C10, at a range of two segments: `new_segment_callback` with `n_new = 2`
writes the members of both segments into the one object `segment`, the keys
twice and no comma between `tokens` of the first and `timestamps` of the
second. -/
theorem segment_mode_two_segments :
    new_segment_callback (fun p => p) two_segment_ctx 2 =
      ⟨"onNewSegment",
        [("\x7b\"result\": \x7b\"language\": \"en\"\x7d,\"segment\": \x7b" ++
          "\"timestamps\": \x7b\"from\": \"00:00:01,000\",\"to\": \"00:00:03,000\"\x7d," ++
          "\"offsets\": \x7b\"from\": 1000,\"to\": 3000\x7d,\"text\": \"hi\"," ++
          "\"tokens\": []" ++
          "\"timestamps\": \x7b\"from\": \"00:00:03,000\",\"to\": \"00:00:04,000\"\x7d," ++
          "\"offsets\": \x7b\"from\": 3000,\"to\": 4000\x7d,\"text\": \"yo\"," ++
          "\"tokens\": []\x7d\x7d").toList]⟩ := by
  decide

/-- C5, amended. For every tick value `0 ≤ t < 36000000` (less than 100 hours)
and both separators, `to_timestamp` is the 12-character string
`HH:MM:SS<sep>mmm` of the specification. -/
theorem to_timestamp_format (t : Int) (comma : Bool) (h0 : 0 ≤ t) (h1 : t < 36000000) :
    to_timestamp t comma = spec_timestamp t comma ∧ (to_timestamp t comma).length = 12 := by
  obtain ⟨n, rfl⟩ := Int.eq_ofNat_of_zero_le h0
  have hn : n < 36000000 := by omega
  have e : to_timestamp (n : Int) comma = spec_timestamp (n : Int) comma := by
    rw [to_timestamp_nat n hn comma]
    unfold spec_timestamp
    have a1 : (10 * (n : Int) / 3600000).toNat = 10 * n / 3600000 := by omega
    have a2 : (10 * (n : Int) / 60000 % 60).toNat = 10 * n / 60000 % 60 := by omega
    have a3 : (10 * (n : Int) / 1000 % 60).toNat = 10 * n / 1000 % 60 := by omega
    have a4 : (10 * (n : Int) % 1000).toNat = 10 * n % 1000 := by omega
    rw [a1, a2, a3, a4]
  refine ⟨e, ?_⟩
  rw [e]
  simp [spec_timestamp, two_digits, three_digits]

/-- Witness of C5: the two examples of the specification, 500 and 6000 ticks. -/
theorem to_timestamp_format_witness :
    to_timestamp 500 false = "00:00:05.000".toList ∧
      to_timestamp 6000 false = "00:01:00.000".toList :=
  ⟨(to_timestamp_format 500 false (by decide) (by decide)).1.trans (by decide),
    (to_timestamp_format 6000 false (by decide) (by decide)).1.trans (by decide)⟩

/-- C5 as stated fails: at 36000000 ticks (100 hours) the string has 13
characters, and at -1 tick the milliseconds are printed as `-10`. -/
theorem to_timestamp_counterexample :
    (to_timestamp 36000000 false).length ≠ 12 ∧
      to_timestamp 36000000 false = "100:00:00.000".toList ∧
      to_timestamp (-1) false = "00:00:00.-10".toList ∧
      to_timestamp (-1) false ≠ spec_timestamp (-1) false := by
  decide

/-- C6. For a NUL-free string `s`: unescaping the escaped string gives `s`
back; the escaped string has no bare quote or backslash; it is `s` with a
backslash written before each quote and each backslash; and its length is that
of `s` plus the number of quotes and backslashes of `s`. -/
theorem escape_roundtrip (s : List Char) (h : NUL ∉ s) :
    unescape (escape_double_quotes_and_backslashes s) = s ∧
      no_bare_special (escape_double_quotes_and_backslashes s) = true ∧
      escape_double_quotes_and_backslashes s = s.flatMap escape_char ∧
      (escape_double_quotes_and_backslashes s).length = s.length + count_special s := by
  rw [escape_eq_flatMap s h]
  exact ⟨unescape_flatMap s, no_bare_flatMap s, rfl, escape_chars_length s⟩

/-- Witness of C6: the string `a"b\c`. -/
theorem escape_roundtrip_witness :
    NUL ∉ ['a', QUOTE, 'b', BACKSLASH, 'c'] ∧
      escape_double_quotes_and_backslashes ['a', QUOTE, 'b', BACKSLASH, 'c'] =
        ['a', BACKSLASH, QUOTE, 'b', BACKSLASH, BACKSLASH, 'c'] ∧
      unescape (escape_double_quotes_and_backslashes ['a', QUOTE, 'b', BACKSLASH, 'c']) =
        ['a', QUOTE, 'b', BACKSLASH, 'c'] :=
  ⟨by decide, by decide, (escape_roundtrip ['a', QUOTE, 'b', BACKSLASH, 'c'] (by decide)).1⟩

/-! ### The claims on the stream buffer, the statuses and the language -/

theorem vector_resize_length {α : Type} (zero : α) (v : List α) (n : Nat) :
    (vector_resize zero v n).length = n := by
  simp [vector_resize]; omega

/-- C1, amended. After `setStreamAudio (c)` the pending buffer is `c`: the
chunk replaces what was buffered. -/
theorem bind_set_stream_audio_replaces {α : Type} (zero : α) (b c : List α) :
    bind_set_stream_audio zero b c = c := by
  unfold bind_set_stream_audio typed_array_set
  simp only
  rw [List.drop_of_length_le (by rw [vector_resize_length]), List.append_nil]

/-- C1 as stated fails: with the sample 1 pending, setting the chunk of the
sample 2 leaves the buffer with 2 alone, not with 1 followed by 2. -/
theorem bind_set_stream_audio_counterexample :
    bind_set_stream_audio (0 : Int) [1] [2] = [2] ∧
      bind_set_stream_audio (0 : Int) [1] [2] ≠ [1] ++ [2] := by
  decide

/-- C8. The block that holds the lock: with fewer than 1024 samples nothing is
handed to the inference and the shared buffer is unchanged; with 1024 samples
or more the chunk handed to the inference is the whole buffer, in order, and
the shared buffer is empty afterwards. -/
theorem drain_block_spec {α : Type} (b pcmf32 : List α) :
    (b.length < 1024 →
        (drain_block b pcmf32).chunk = none ∧ (drain_block b pcmf32).g_pcmf32 = b) ∧
      (1024 ≤ b.length →
        (drain_block b pcmf32).chunk = some b ∧ (drain_block b pcmf32).g_pcmf32 = []) := by
  constructor
  · intro h
    simp [drain_block, DrainResult.chunk, h]
  · intro h
    have : ¬ b.length < 1024 := by omega
    simp [drain_block, DrainResult.chunk, this]

/-- Witness of C8: three samples stay in the buffer, 1024 samples are drained. -/
theorem drain_block_spec_witness :
    ((drain_block [1, 2, 3] ([] : List Int)).chunk = none ∧
        (drain_block [1, 2, 3] ([] : List Int)).g_pcmf32 = [1, 2, 3]) ∧
      ((drain_block (List.replicate 1024 (1 : Int)) []).chunk =
          some (List.replicate 1024 1) ∧
        (drain_block (List.replicate 1024 (1 : Int)) []).g_pcmf32 = []) :=
  ⟨(drain_block_spec [1, 2, 3] ([] : List Int)).1 (by decide),
    (drain_block_spec (List.replicate 1024 (1 : Int)) []).2 (by simp)⟩

/-- C7, at two successive sessions that are stopped before their first loop
iteration: the statuses requested are `loading`, `stopped`, `loading`,
`stopped`, and the events delivered are `loading`, `stopped`, `stopped`. -/
theorem stream_status_two_sessions :
    delivered_statuses
        (stream_sessions (0 : Int) (fun (p : List Char) => p) [[], []] StreamState.init) =
      [["loading".toList], ["stopped".toList], ["stopped".toList]] := by
  decide

end Shout
